import Mathlib

/-!
Shallow embedding of `fork_queue.py`, a tool that lists branches in GitHub
forks of a repository that have not been merged into a local integration
branch.

The Python program consists of:
  * two API accessors `get_forks` / `get_branches` building a URL, issuing a
    single HTTP GET and parsing the JSON array response into records;
  * `branch_is_merged`, resolving the branch commit hash in the local
    repository (a failure is caught and treated as "not merged"), resolving
    the integration ref (a failure propagates), and walking the integration
    head's proper ancestors (GitPython's `Commit.iter_parents`, which skips
    the starting commit itself) looking for the branch commit;
  * `main`, which folds over the forks keeping a set `all_unmerged` of
    commit hashes already reported, filters each fork's branches, updates the
    set after the whole fork is filtered, and prints a header plus indented
    branch names for each fork that has unmerged branches.

External primitives (the local git object database, GitPython's ancestor
iteration, the HTTP layer and the JSON parser) are modelled explicitly:
a git repository is a finite map from commit hash to parent hashes plus a
ref table, HTTP is a function from URL to a fallible JSON response, and
Python exceptions are an explicit error type threaded through `Except`.
Generators are modelled eagerly: on successful runs the behaviour is
identical, and an error raised anywhere still propagates as an error.
-/

namespace ForkQueue

/-- Repository record, mirroring `Repository = namedtuple('Repository', ('owner', 'name'))`. -/
structure Repository where
  owner : String
  name : String
  deriving DecidableEq, Repr

/-- Branch record, mirroring `Branch = namedtuple('Branch', ('name', 'commit'))`;
`commit` is the head commit hash reported by the API. -/
structure Branch where
  name : String
  commit : String
  deriving DecidableEq, Repr

/-- Model of the local git repository used through GitPython: a finite
association list from commit hash to the list of parent hashes, plus a table
of refs (branch names) to commit hashes.  Read-only for this tool. -/
structure GitRepo where
  commits : List (String × List String)
  refs : List (String × String)

/-- Errors a run of the Python program can raise: a network failure from
`requests.get`, a malformed JSON response (failed `.json()` or a missing or
ill-typed field), or a rev that `local_repo.commit` cannot resolve
(GitPython's `BadObject` / `BadName`). -/
inductive PyError where
  | network (url : String)
  | jsonError (url : String)
  | badRef (rev : String)
  deriving DecidableEq, Repr

/-- Minimal JSON value model for the API responses. -/
inductive Json where
  | null
  | str (s : String)
  | num (n : Int)
  | arr (elements : List Json)
  | obj (fields : List (String × Json))

/-- Parent hashes of a commit hash; a hash absent from the repository has no
parents (it is not a commit at all). -/
def parentsOf (g : GitRepo) (h : String) : List String :=
  (g.commits.lookup h).getD []

/-- Model of `local_repo.commit(rev)`: resolve a rev (a ref name or a commit
hash) to a commit hash, or fail (GitPython raises `BadName`, a subclass of
`BadObject`, when the rev does not resolve to an object). -/
def resolve (g : GitRepo) (rev : String) : Option String :=
  match g.refs.lookup rev with
  | some h => if (g.commits.lookup h).isSome then some h else none
  | none => if (g.commits.lookup rev).isSome then some rev else none

/-- Append to `acc` the elements of the second list not already present,
keeping order and avoiding duplicates. -/
def addNew (acc : List String) : List String → List String
  | [] => acc
  | x :: xs => if acc.contains x then addNew acc xs else addNew (acc ++ [x]) xs

/-- One round of the ancestor closure: add every parent of a commit already
in the set. -/
def ancStep (g : GitRepo) (s : List String) : List String :=
  addNew s (s.flatMap (parentsOf g))

/-- Every hash mentioned anywhere in the repository (keys and parent lists):
a finite universe containing all possible ancestors. -/
def hashesOf (g : GitRepo) : List String :=
  g.commits.flatMap (fun kv => kv.fst :: kv.snd)

/-- Model of GitPython's `Commit.iter_parents()` on the commit `h`: the set of
all proper ancestors of `h`.  `iter_parents` runs `git rev-list h` with
`skip = 1` ("skip ourselves"), so the starting commit itself is excluded and
every commit reachable through at least one parent edge is produced exactly
once.  Only membership in the produced sequence matters to the caller, so the
model computes the reachable set by iterating the one-step closure enough
times to hit its fixed point. -/
def iter_parents (g : GitRepo) (h : String) : List String :=
  (ancStep g)^[(hashesOf g).length + 1] (addNew [] (parentsOf g h))

/-- Embedding of `branch_is_merged(branch, local_repo, integration_branch)`:
resolve the branch commit (`BadObject` is caught and yields `False`), resolve
the integration ref (a failure propagates), then test whether the branch
commit occurs among the integration head's proper ancestors. -/
def branch_is_merged (branch : Branch) (local_repo : GitRepo)
    (integration_branch : String) : Except PyError Bool :=
  match resolve local_repo branch.commit with
  | none => .ok false
  | some branch_commit =>
    match resolve local_repo integration_branch with
    | none => .error (.badRef integration_branch)
    | some integration_commit =>
      .ok ((iter_parents local_repo integration_commit).contains branch_commit)

/-- Field lookup in a JSON object, `none` when the value is not an object or
the key is missing (Python raises `TypeError` / `KeyError`). -/
def Json.getField (j : Json) (key : String) : Option Json :=
  match j with
  | .obj fields => fields.lookup key
  | _ => none

/-- String extraction from a JSON value. -/
def Json.asString (j : Json) : Option String :=
  match j with
  | .str s => some s
  | _ => none

/-- Parse one element of the forks response: `Repository(repo['owner']['login'], repo['name'])`. -/
def parseFork (j : Json) : Option Repository := do
  let ownerObj ← Json.getField j "owner"
  let loginJ ← Json.getField ownerObj "login"
  let login ← Json.asString loginJ
  let nameJ ← Json.getField j "name"
  let nm ← Json.asString nameJ
  some ⟨login, nm⟩

/-- Parse one element of the branches response: `Branch(branch['name'], branch['commit']['sha'])`. -/
def parseBranch (j : Json) : Option Branch := do
  let nameJ ← Json.getField j "name"
  let nm ← Json.asString nameJ
  let commitObj ← Json.getField j "commit"
  let shaJ ← Json.getField commitObj "sha"
  let sha ← Json.asString shaJ
  some ⟨nm, sha⟩

/-- Base URL of the API, `API_URL = 'https://api.github.com'`. -/
def API_URL : String := "https://api.github.com"

/-- URL requested by `get_forks` for a repository. -/
def forksUrl (repository : Repository) : String :=
  API_URL ++ "/repos/" ++ repository.owner ++ "/" ++ repository.name ++
    "/forks?per_page=100"

/-- URL requested by `get_branches` for a repository. -/
def branchesUrl (repository : Repository) : String :=
  API_URL ++ "/repos/" ++ repository.owner ++ "/" ++ repository.name ++
    "/branches?per_page=100"

/-- Model of the HTTP layer: `requests.get(url).json()` either fails (network
error, or a body that is not JSON) or produces a JSON value. -/
def Http : Type := String → Except PyError Json

/-- Embedding of `get_forks(repository)`: the list of URLs requested (the
program issues exactly one GET, with no pagination) paired with the parsed
result.  A response that is not a JSON array, or an element from which the
expected fields cannot be extracted, is a malformed-JSON error. -/
def get_forks (http : Http) (repository : Repository) :
    List String × Except PyError (List Repository) :=
  let url := forksUrl repository
  ([url],
    match http url with
    | .error e => .error e
    | .ok (Json.arr elements) =>
      match elements.mapM parseFork with
      | some repos => .ok repos
      | none => .error (.jsonError url)
    | .ok _ => .error (.jsonError url))

/-- Embedding of `get_branches(repository)`, analogous to `get_forks`. -/
def get_branches (http : Http) (repository : Repository) :
    List String × Except PyError (List Branch) :=
  let url := branchesUrl repository
  ([url],
    match http url with
    | .error e => .error e
    | .ok (Json.arr elements) =>
      match elements.mapM parseBranch with
      | some branches => .ok branches
      | none => .error (.jsonError url)
    | .ok _ => .error (.jsonError url))

/-- Embedding of the list comprehension in `main`: keep the branches that are
not merged and whose commit hash is not already in `all_unmerged`.  The set is
not modified while filtering; an error raised by `branch_is_merged` aborts the
whole comprehension. -/
def processBranches (g : GitRepo) (integration_branch : String)
    (all_unmerged : List String) : List Branch → Except PyError (List Branch)
  | [] => .ok []
  | b :: bs =>
    match branch_is_merged b g integration_branch with
    | .error e => .error e
    | .ok merged =>
      match processBranches g integration_branch all_unmerged bs with
      | .error e => .error e
      | .ok rest =>
        if !merged && !(all_unmerged.contains b.commit) then .ok (b :: rest)
        else .ok rest

/-- Embedding of the fork loop in `main`.  For each fork in order: fetch its
branches, filter them against the current `all_unmerged` set, then add the
kept branches' commits to the set.  The result is the per-fork report (the
fork together with its kept branches, driving the printing) and the final
state of `all_unmerged`.  The set is modelled as a list whose membership is
the set membership. -/
def mainLoop (g : GitRepo) (integration_branch : String) (http : Http) :
    List String → List Repository →
    Except PyError (List (Repository × List Branch) × List String)
  | all_unmerged, [] => .ok ([], all_unmerged)
  | all_unmerged, fork :: forks =>
    match (get_branches http fork).snd with
    | .error e => .error e
    | .ok branches =>
      match processBranches g integration_branch all_unmerged branches with
      | .error e => .error e
      | .ok ubs =>
        match mainLoop g integration_branch http
            (all_unmerged ++ ubs.map Branch.commit) forks with
        | .error e => .error e
        | .ok (rest, final) => .ok ((fork, ubs) :: rest, final)

/-- Lines printed for one fork: nothing when no branch was kept, otherwise the
`owner/name:` header followed by each branch name indented by two spaces. -/
def renderFork (fork : Repository) (ubs : List Branch) : List String :=
  if ubs.isEmpty then []
  else (fork.owner ++ "/" ++ fork.name ++ ":") :: ubs.map (fun b => "  " ++ b.name)

/-- Embedding of `main(repository, integration_branch)`: fetch the forks, run
the fork loop starting from the empty `all_unmerged` set, and produce the
printed lines in order. -/
def main (g : GitRepo) (http : Http) (repository : Repository)
    (integration_branch : String) : Except PyError (List String) :=
  match (get_forks http repository).snd with
  | .error e => .error e
  | .ok forks =>
    match mainLoop g integration_branch http [] forks with
    | .error e => .error e
    | .ok (report, _) => .ok (report.flatMap (fun p => renderFork p.fst p.snd))

/-- Proper ancestry in the modelled commit graph: `IsAncestor g h a` holds
when `a` is reachable from `h` through at least one parent edge. -/
inductive IsAncestor (g : GitRepo) (h : String) : String → Prop where
  | base {a : String} : a ∈ parentsOf g h → IsAncestor g h a
  | step {p a : String} : IsAncestor g h p → a ∈ parentsOf g p → IsAncestor g h a

/-! Concrete fixtures used to evaluate the model on the scenarios named by the
specification: a three-commit linear history, a repository without the
integration ref, a one-commit local repository, and fake HTTP layers serving
the fork and branch responses of the worked examples. -/

/-- Linear local history `c2 <- c1 <- c0` with the integration ref `main`
pointing at `c2`. -/
def exampleRepo : GitRepo :=
  { commits := [("c2", ["c1"]), ("c1", ["c0"]), ("c0", [])],
    refs := [("main", "c2")] }

/-- Local repository holding one commit but no `main` ref, so the integration
ref does not resolve. -/
def gNoRef : GitRepo :=
  { commits := [("c0", [])], refs := [] }

/-- Local repository of the end-to-end example: one commit `m0`, integration
ref `main`, and no knowledge of any fork commit. -/
def exampleLocal : GitRepo :=
  { commits := [("m0", [])], refs := [("main", "m0")] }

/-- API element describing the fork `alice/repo`. -/
def forkJsonAlice : Json :=
  Json.obj [("owner", Json.obj [("login", Json.str "alice")]), ("name", Json.str "repo")]

/-- API element describing the fork `bob/repo`. -/
def forkJsonBob : Json :=
  Json.obj [("owner", Json.obj [("login", Json.str "bob")]), ("name", Json.str "repo")]

/-- API element describing branch `feature` at commit `abc123`. -/
def branchJsonFeature : Json :=
  Json.obj [("name", Json.str "feature"), ("commit", Json.obj [("sha", Json.str "abc123")])]

/-- API element describing branch `other` at the same commit `abc123`. -/
def branchJsonOther : Json :=
  Json.obj [("name", Json.str "other"), ("commit", Json.obj [("sha", Json.str "abc123")])]

/-- Fake HTTP layer of the end-to-end example: one fork `alice/repo` with one
branch `feature` at commit `abc123`. -/
def httpC : Http := fun url =>
  if url = forksUrl ⟨"me", "repo"⟩ then
    .ok (Json.arr [forkJsonAlice])
  else if url = branchesUrl ⟨"alice", "repo"⟩ then
    .ok (Json.arr [branchJsonFeature])
  else .error (.network url)

/-- Fake HTTP layer with two forks whose branches point at the same commit
`abc123`, for the cross-fork deduplication scenario. -/
def http2 : Http := fun url =>
  if url = forksUrl ⟨"me", "repo"⟩ then
    .ok (Json.arr [forkJsonAlice, forkJsonBob])
  else if url = branchesUrl ⟨"alice", "repo"⟩ then
    .ok (Json.arr [branchJsonFeature])
  else if url = branchesUrl ⟨"bob", "repo"⟩ then
    .ok (Json.arr [branchJsonOther])
  else .error (.network url)

/-- HTTP layer in which every request fails with a network error. -/
def httpErr : Http := fun url => .error (.network url)

/-- HTTP layer answering every request with a JSON value that is not an
array. -/
def httpBad : Http := fun _ => .ok (Json.str "oops")

/-! Helper lemmas about `addNew` and the iterated ancestor closure. -/

/-- Membership after `addNew` is membership in either argument. -/
theorem mem_addNew {a : String} (xs acc : List String) :
    a ∈ addNew acc xs ↔ a ∈ acc ∨ a ∈ xs := by
  induction xs generalizing acc with
  | nil => simp [addNew]
  | cons x xs ih =>
    rw [addNew]
    by_cases hx : acc.contains x
    · rw [if_pos hx, ih]
      have hxm : x ∈ acc := by simpa using hx
      constructor
      · rintro (h | h)
        · exact Or.inl h
        · exact Or.inr (List.mem_cons_of_mem _ h)
      · rintro (h | h)
        · exact Or.inl h
        · rcases List.mem_cons.mp h with rfl | h
          · exact Or.inl hxm
          · exact Or.inr h
    · rw [if_neg hx, ih]
      simp [List.mem_append, List.mem_cons, or_assoc]

/-- Adding elements never shortens the accumulator. -/
theorem length_le_addNew (xs acc : List String) :
    acc.length ≤ (addNew acc xs).length := by
  induction xs generalizing acc with
  | nil => simp [addNew]
  | cons x xs ih =>
    rw [addNew]
    by_cases hx : acc.contains x
    · rw [if_pos hx]; exact ih acc
    · rw [if_neg hx]
      calc acc.length ≤ (acc ++ [x]).length := by simp
        _ ≤ _ := ih (acc ++ [x])

/-- When `addNew` changes the accumulator it strictly lengthens it. -/
theorem lt_length_addNew_of_ne (xs acc : List String) (h : addNew acc xs ≠ acc) :
    acc.length < (addNew acc xs).length := by
  induction xs generalizing acc with
  | nil => simp [addNew] at h
  | cons x xs ih =>
    rw [addNew] at h ⊢
    by_cases hx : acc.contains x
    · rw [if_pos hx] at h ⊢; exact ih acc h
    · rw [if_neg hx] at h ⊢
      calc acc.length < (acc ++ [x]).length := by simp
        _ ≤ _ := length_le_addNew xs (acc ++ [x])

/-- When `addNew` leaves the accumulator unchanged, everything offered was
already present. -/
theorem sub_of_addNew_eq (xs acc : List String) (h : addNew acc xs = acc) :
    xs ⊆ acc := by
  intro a ha
  have hiff := mem_addNew (a := a) xs acc
  rw [h] at hiff
  exact hiff.mpr (Or.inr ha)

/-- The accumulator stays duplicate-free through `addNew`. -/
theorem nodup_addNew (xs acc : List String) (h : acc.Nodup) :
    (addNew acc xs).Nodup := by
  induction xs generalizing acc with
  | nil => simpa [addNew]
  | cons x xs ih =>
    rw [addNew]
    by_cases hx : acc.contains x
    · rw [if_pos hx]; exact ih acc h
    · rw [if_neg hx]
      refine ih _ ?_
      have hxm : x ∉ acc := by simpa using hx
      simp [List.nodup_append, h, hxm]

/-- Boolean membership on a list of strings agrees with propositional
membership. -/
theorem contains_iff_mem_str (l : List String) (a : String) :
    l.contains a = true ↔ a ∈ l := by simp

/-- Values stored in an association list are contained in the flattened
key-and-values universe. -/
theorem lookup_parents_sub (l : List (String × List String)) (x : String) :
    ((l.lookup x).getD []) ⊆ l.flatMap (fun kv => kv.fst :: kv.snd) := by
  induction l with
  | nil => intro a ha; simp [List.lookup] at ha
  | cons kv tl ih =>
    rcases kv with ⟨k, v⟩
    by_cases hxk : (x == k)
    · intro a ha
      rw [List.lookup, hxk] at ha
      simp only [Option.getD_some] at ha
      rw [List.flatMap_cons]
      exact List.mem_append_left _ (List.mem_cons_of_mem _ ha)
    · intro a ha
      rw [Bool.not_eq_true] at hxk
      rw [List.lookup, hxk] at ha
      rw [List.flatMap_cons]
      exact List.mem_append_right _ (ih ha)

/-- Parent hashes always lie inside the repository's hash universe. -/
theorem parentsOf_sub_hashesOf (g : GitRepo) (x : String) :
    parentsOf g x ⊆ hashesOf g :=
  lookup_parents_sub g.commits x

/-- Every iterate of the ancestor closure stays inside the hash universe. -/
theorem iterate_sub_hashesOf (g : GitRepo) (h : String) (k : Nat) :
    (ancStep g)^[k] (addNew [] (parentsOf g h)) ⊆ hashesOf g := by
  induction k with
  | zero =>
    intro a ha
    rw [Function.iterate_zero_apply] at ha
    rcases (mem_addNew _ _).mp ha with h' | h'
    · simp at h'
    · exact parentsOf_sub_hashesOf g h h'
  | succ k ih =>
    intro a ha
    rw [Function.iterate_succ_apply'] at ha
    rcases (mem_addNew _ _).mp ha with h' | h'
    · exact ih h'
    · rcases List.mem_flatMap.mp h' with ⟨p, _, hap⟩
      exact parentsOf_sub_hashesOf g p hap

/-- Every iterate of the ancestor closure is duplicate-free. -/
theorem iterate_nodup (g : GitRepo) (h : String) (k : Nat) :
    ((ancStep g)^[k] (addNew [] (parentsOf g h))).Nodup := by
  induction k with
  | zero => rw [Function.iterate_zero_apply]; exact nodup_addNew _ _ List.nodup_nil
  | succ k ih => rw [Function.iterate_succ_apply']; exact nodup_addNew _ _ ih

/-- The iterate used by `iter_parents` has reached a fixed point of the
one-step closure: in a universe of `n` hashes, a strictly growing
duplicate-free subset cannot survive `n + 1` rounds. -/
theorem ancStep_iter_parents_fix (g : GitRepo) (h : String) :
    ancStep g (iter_parents g h) = iter_parents g h := by
  unfold iter_parents
  by_cases hfix : ∃ j, j ≤ (hashesOf g).length ∧
      ancStep g ((ancStep g)^[j] (addNew [] (parentsOf g h))) =
        (ancStep g)^[j] (addNew [] (parentsOf g h))
  · obtain ⟨j, hj, hfx⟩ := hfix
    have hsplit : (hashesOf g).length + 1 = ((hashesOf g).length + 1 - j) + j := by omega
    have hiter : (ancStep g)^[(hashesOf g).length + 1] (addNew [] (parentsOf g h)) =
        (ancStep g)^[j] (addNew [] (parentsOf g h)) := by
      rw [hsplit, Function.iterate_add_apply]
      exact Function.iterate_fixed hfx ((hashesOf g).length + 1 - j)
    rw [hiter, hfx]
  · push_neg at hfix
    have grow : ∀ k, (∀ j, j < k →
        ancStep g ((ancStep g)^[j] (addNew [] (parentsOf g h))) ≠
          (ancStep g)^[j] (addNew [] (parentsOf g h))) →
        k ≤ ((ancStep g)^[k] (addNew [] (parentsOf g h))).length := by
      intro k
      induction k with
      | zero => intro _; exact Nat.zero_le _
      | succ k ih =>
        intro hne
        have h1 := ih (fun j hj => hne j (Nat.lt_succ_of_lt hj))
        have h2 : ((ancStep g)^[k] (addNew [] (parentsOf g h))).length <
            ((ancStep g)^[k + 1] (addNew [] (parentsOf g h))).length := by
          rw [Function.iterate_succ_apply']
          exact lt_length_addNew_of_ne _ _ (hne k (Nat.lt_succ_self k))
        omega
    have h1 := grow ((hashesOf g).length + 1) (fun j hj => hfix j (by omega))
    have h2 : ((ancStep g)^[(hashesOf g).length + 1]
        (addNew [] (parentsOf g h))).length ≤ (hashesOf g).length :=
      ((iterate_nodup g h _).subperm (iterate_sub_hashesOf g h _)).length_le
    omega

/-- Direct parents are produced by `iter_parents`. -/
theorem parents_sub_iter_parents (g : GitRepo) (h : String) :
    parentsOf g h ⊆ iter_parents g h := by
  intro a ha
  have mono : ∀ (n : Nat) (s : List String), s ⊆ (ancStep g)^[n] s := by
    intro n
    induction n with
    | zero => intro s; simp
    | succ n ih =>
      intro s a' ha'
      rw [Function.iterate_succ_apply']
      exact (mem_addNew _ _).mpr (Or.inl (ih s ha'))
  exact mono _ _ ((mem_addNew (a := a) _ _).mpr (Or.inr ha))

/-- The set produced by `iter_parents` is closed under taking parents. -/
theorem iter_parents_closed (g : GitRepo) (h : String) :
    ∀ x ∈ iter_parents g h, parentsOf g x ⊆ iter_parents g h := by
  intro x hx p hp
  have hsub : (iter_parents g h).flatMap (parentsOf g) ⊆ iter_parents g h :=
    sub_of_addNew_eq _ _ (ancStep_iter_parents_fix g h)
  exact hsub (List.mem_flatMap.mpr ⟨x, hx, hp⟩)

/-- Everything produced along the iteration is a proper ancestor. -/
theorem iterate_sound (g : GitRepo) (h : String) (k : Nat) :
    ∀ a ∈ (ancStep g)^[k] (addNew [] (parentsOf g h)), IsAncestor g h a := by
  induction k with
  | zero =>
    intro a ha
    rw [Function.iterate_zero_apply] at ha
    rcases (mem_addNew _ _).mp ha with h' | h'
    · simp at h'
    · exact IsAncestor.base h'
  | succ k ih =>
    intro a ha
    rw [Function.iterate_succ_apply'] at ha
    rcases (mem_addNew _ _).mp ha with h' | h'
    · exact ih a h'
    · rcases List.mem_flatMap.mp h' with ⟨p, hp, hap⟩
      exact IsAncestor.step (ih p hp) hap

/-- Correctness of the modelled ancestor walk: `iter_parents` produces
exactly the proper ancestors. -/
theorem mem_iter_parents (g : GitRepo) (h a : String) :
    a ∈ iter_parents g h ↔ IsAncestor g h a := by
  constructor
  · intro ha
    unfold iter_parents at ha
    exact iterate_sound g h _ a ha
  · intro ha
    induction ha with
    | base hp => exact parents_sub_iter_parents g h hp
    | step hanc hp ih => exact iter_parents_closed g h _ ih hp

/-! Helper lemmas about the filtering comprehension and the fork loop. -/

/-- Characterisation of the list comprehension of `main`: a branch is kept
exactly when it occurs in the input, is judged unmerged, and its commit hash
is not in the `all_unmerged` set used for the whole fork. -/
theorem processBranches_mem (g : GitRepo) (integ : String) (acc : List String)
    (bs : List Branch) (ubs : List Branch)
    (h : processBranches g integ acc bs = .ok ubs) (b : Branch) :
    b ∈ ubs ↔ b ∈ bs ∧ branch_is_merged b g integ = .ok false ∧ b.commit ∉ acc := by
  induction bs generalizing ubs with
  | nil =>
    rw [processBranches] at h
    injection h with h'
    subst h'
    simp
  | cons b' bs ih =>
    rw [processBranches] at h
    split at h
    · exact absurd h (by simp)
    · next merged hm =>
      split at h
      · exact absurd h (by simp)
      · next rest hr =>
        have ihr := ih rest hr
        split at h
        · next hcond =>
          injection h with h'
          subst h'
          have hparts : merged = false ∧ acc.contains b'.commit = false := by
            simpa [Bool.and_eq_true, Bool.not_eq_true'] using hcond
          constructor
          · intro hb
            rcases List.mem_cons.mp hb with rfl | hb
            · refine ⟨List.mem_cons_self _ _, ?_, ?_⟩
              · rw [hm, hparts.1]
              · intro hmem
                have hcontains := (contains_iff_mem_str acc b.commit).mpr hmem
                rw [hparts.2] at hcontains
                exact absurd hcontains (by simp)
            · rcases ihr.mp hb with ⟨h1, h2, h3⟩
              exact ⟨List.mem_cons_of_mem _ h1, h2, h3⟩
          · rintro ⟨hb, hmg, hacc⟩
            rcases List.mem_cons.mp hb with rfl | hb
            · exact List.mem_cons_self _ _
            · exact List.mem_cons_of_mem _ (ihr.mpr ⟨hb, hmg, hacc⟩)
        · next hcond =>
          injection h with h'
          subst h'
          constructor
          · intro hb
            rcases ihr.mp hb with ⟨h1, h2, h3⟩
            exact ⟨List.mem_cons_of_mem _ h1, h2, h3⟩
          · rintro ⟨hb, hmg, hacc⟩
            rcases List.mem_cons.mp hb with rfl | hb
            · exfalso
              apply hcond
              have h1 : merged = false := by
                rw [hm] at hmg
                injection hmg
              have h2 : acc.contains b.commit = false := by
                rw [← Bool.not_eq_true]
                intro hc
                exact hacc ((contains_iff_mem_str acc b.commit).mp hc)
              rw [h1, h2]
              rfl
            · exact ihr.mpr ⟨hb, hmg, hacc⟩

/-- Running the fork loop over an appended list of forks is running it over
the first part and continuing from the state it produced. -/
theorem mainLoop_append (g : GitRepo) (integ : String) (http : Http)
    (pre post : List Repository) (acc : List String)
    (r1 : List (Repository × List Branch)) (s1 : List String)
    (h1 : mainLoop g integ http acc pre = .ok (r1, s1)) :
    mainLoop g integ http acc (pre ++ post) =
      match mainLoop g integ http s1 post with
      | .error e => .error e
      | .ok (r2, s2) => .ok (r1 ++ r2, s2) := by
  induction pre generalizing acc r1 s1 with
  | nil =>
    rw [mainLoop] at h1
    injection h1 with h'
    rw [Prod.mk.injEq] at h'
    obtain ⟨hr, hs⟩ := h'
    subst hr
    subst hs
    simp only [List.nil_append]
    cases hm : mainLoop g integ http acc post with
    | error e => simp only [hm]
    | ok rs => rcases rs with ⟨r2, s2⟩; simp [hm]
  | cons f pre ih =>
    rw [mainLoop] at h1
    split at h1
    · exact absurd h1 (by simp)
    · next branches hb =>
      split at h1
      · exact absurd h1 (by simp)
      · next ubs hp =>
        split at h1
        · exact absurd h1 (by simp)
        · next rest fin hm =>
          injection h1 with h'
          rw [Prod.mk.injEq] at h'
          obtain ⟨hr, hs⟩ := h'
          subst hr
          subst hs
          rw [List.cons_append, mainLoop]
          simp only [hb, hp]
          rw [ih _ _ _ hm]
          cases hm2 : mainLoop g integ http fin post with
          | error e => simp only [hm2]
          | ok rs2 => rcases rs2 with ⟨r2, s2⟩; simp [hm2]

/-- The `all_unmerged` state produced by the fork loop consists of the
incoming state together with exactly the commits of the reported branches. -/
theorem mainLoop_state_iff (g : GitRepo) (integ : String) (http : Http)
    (acc : List String) (forks : List Repository)
    (report : List (Repository × List Branch)) (final : List String)
    (h : mainLoop g integ http acc forks = .ok (report, final)) (c : String) :
    c ∈ final ↔ c ∈ acc ∨ ∃ p ∈ report, c ∈ p.snd.map Branch.commit := by
  induction forks generalizing acc report final with
  | nil =>
    rw [mainLoop] at h
    injection h with h'
    rw [Prod.mk.injEq] at h'
    obtain ⟨hr, hs⟩ := h'
    subst hr
    subst hs
    simp
  | cons f forks ih =>
    rw [mainLoop] at h
    split at h
    · exact absurd h (by simp)
    · next branches hb =>
      split at h
      · exact absurd h (by simp)
      · next ubs hp =>
        split at h
        · exact absurd h (by simp)
        · next rest fin hm =>
          injection h with h'
          rw [Prod.mk.injEq] at h'
          obtain ⟨hr, hs⟩ := h'
          subst hr
          subst hs
          have := ih _ _ _ hm
          rw [this]
          simp only [List.mem_append, List.mem_cons]
          constructor
          · rintro ((hc | hc) | ⟨p, hp', hc⟩)
            · exact Or.inl hc
            · exact Or.inr ⟨(f, ubs), Or.inl rfl, hc⟩
            · exact Or.inr ⟨p, Or.inr hp', hc⟩
          · rintro (hc | ⟨p, hp' | hp', hc⟩)
            · exact Or.inl (Or.inl hc)
            · subst hp'
              exact Or.inl (Or.inr hc)
            · exact Or.inr ⟨p, hp', hc⟩

/-- Every branch the fork loop reports has a commit hash outside the
`all_unmerged` state the loop started from. -/
theorem mainLoop_reported_not_in_acc (g : GitRepo) (integ : String) (http : Http)
    (acc : List String) (forks : List Repository)
    (report : List (Repository × List Branch)) (final : List String)
    (h : mainLoop g integ http acc forks = .ok (report, final)) :
    ∀ p ∈ report, ∀ b ∈ p.snd, b.commit ∉ acc := by
  induction forks generalizing acc report final with
  | nil =>
    rw [mainLoop] at h
    injection h with h'
    rw [Prod.mk.injEq] at h'
    obtain ⟨hr, _⟩ := h'
    subst hr
    intro p hp
    simp at hp
  | cons f forks ih =>
    rw [mainLoop] at h
    split at h
    · exact absurd h (by simp)
    · next branches hb =>
      split at h
      · exact absurd h (by simp)
      · next ubs hp =>
        split at h
        · exact absurd h (by simp)
        · next rest fin hm =>
          injection h with h'
          rw [Prod.mk.injEq] at h'
          obtain ⟨hr, _⟩ := h'
          subst hr
          intro p hpmem b hb'
          rcases List.mem_cons.mp hpmem with rfl | hpmem
          · exact ((processBranches_mem g integ acc branches ubs hp b).mp hb').2.2
          · intro hacc
            exact ih _ _ _ hm p hpmem b hb' (List.mem_append_left _ hacc)

/-- Mapping a fallible parser over a list succeeds with one output per
element. -/
theorem mapM_option_length {α β : Type} (f : α → Option β) :
    ∀ (xs : List α) (ys : List β), xs.mapM f = some ys → ys.length = xs.length := by
  intro xs
  induction xs with
  | nil =>
    intro ys h
    rw [List.mapM_nil] at h
    injection h with h'
    subst h'
    rfl
  | cons x xs ih =>
    intro ys h
    rw [List.mapM_cons] at h
    cases hx : f x with
    | none => rw [hx] at h; simp at h
    | some b =>
      rw [hx] at h
      cases hxs : xs.mapM f with
      | none => rw [hxs] at h; simp at h
      | some bs =>
        rw [hxs] at h
        simp only [Option.pure_def, Option.bind_some] at h
        injection h with h'
        subst h'
        simp [ih bs hxs]

/-- Unfolding of `get_forks` when the request itself fails. -/
theorem get_forks_snd_error (http : Http) (repository : Repository) (e : PyError)
    (h : http (forksUrl repository) = .error e) :
    (get_forks http repository).snd = .error e := by
  unfold get_forks
  simp only [h]

/-! Claim theorems. -/

/-- C1: the claim states that a branch whose commit hash resolves to the head
commit of the integration branch itself is reported as merged.  The code walks
only the proper ancestors of the integration head (GitPython's `iter_parents`
skips the starting commit), so on a linear history `c2 <- c1 <- c0` with
`main` at `c2`, a branch pointing at `c2` — the integration head itself — is
judged NOT merged, contradicting the claim and the function's own purpose of
reporting branches that have been merged.  This theorem evaluates the
embedded code at that failing input. -/
theorem C1_head_commit_reported_unmerged :
    resolve exampleRepo "main" = some "c2" ∧
    resolve exampleRepo (Branch.mk "up-to-date" "c2").commit = some "c2" ∧
    branch_is_merged ⟨"up-to-date", "c2"⟩ exampleRepo "main" = .ok false :=
  ⟨rfl, rfl, rfl⟩

/-- C2: for a branch whose commit exists in the local repository and an
integration ref that resolves, `branch_is_merged` returns true exactly when
the branch commit is an ancestor — at any generation depth of at least one
parent step — of the integration head, and false exactly when it is not
(in particular for a commit on a divergent line). -/
theorem C2_merged_iff_ancestor (branch : Branch) (g : GitRepo)
    (integration_branch : String) (bc ic : String)
    (hb : resolve g branch.commit = some bc)
    (hi : resolve g integration_branch = some ic) :
    (branch_is_merged branch g integration_branch = .ok true ↔ IsAncestor g ic bc) ∧
    (branch_is_merged branch g integration_branch = .ok false ↔ ¬ IsAncestor g ic bc) := by
  have hrun : branch_is_merged branch g integration_branch =
      .ok ((iter_parents g ic).contains bc) := by
    unfold branch_is_merged
    simp only [hb, hi]
  have hcm := contains_iff_mem_str (iter_parents g ic) bc
  have hma := mem_iter_parents g ic bc
  rw [hrun]
  constructor
  · constructor
    · intro h
      injection h with h'
      exact hma.mp (hcm.mp h')
    · intro h
      rw [hcm.mpr (hma.mpr h)]
  · constructor
    · intro h hanc
      rw [hcm.mpr (hma.mpr hanc)] at h
      exact absurd h (by simp)
    · intro h
      have hfc : (iter_parents g ic).contains bc = false := by
        rw [← Bool.not_eq_true]
        intro hcb
        exact h (hma.mp (hcm.mp hcb))
      rw [hfc]

/-- Witness for C2: on the linear history, the branch at `c0` (two
generations below head `c2`) is judged merged, and `c0` is an ancestor. -/
theorem C2_merged_iff_ancestor_witness :
    resolve exampleRepo (Branch.mk "b" "c0").commit = some "c0" ∧
    resolve exampleRepo "main" = some "c2" ∧
    ((branch_is_merged ⟨"b", "c0"⟩ exampleRepo "main" = .ok true ↔
        IsAncestor exampleRepo "c2" "c0") ∧
      (branch_is_merged ⟨"b", "c0"⟩ exampleRepo "main" = .ok false ↔
        ¬ IsAncestor exampleRepo "c2" "c0")) :=
  ⟨rfl, rfl, C2_merged_iff_ancestor ⟨"b", "c0"⟩ exampleRepo "main" "c0" "c2" rfl rfl⟩

/-- C3: a branch whose commit hash is absent from the local repository is
reported as not merged, with a normal `False` result rather than an error. -/
theorem C3_missing_commit_not_merged (branch : Branch) (g : GitRepo)
    (integration_branch : String) (h : resolve g branch.commit = none) :
    branch_is_merged branch g integration_branch = .ok false := by
  unfold branch_is_merged
  simp only [h]

/-- Witness for C3: commit `abc123` does not exist in the one-commit local
repository, and the merge check returns the ordinary `false`. -/
theorem C3_missing_commit_not_merged_witness :
    resolve exampleLocal (Branch.mk "feature" "abc123").commit = none ∧
    branch_is_merged ⟨"feature", "abc123"⟩ exampleLocal "main" = .ok false :=
  ⟨rfl, C3_missing_commit_not_merged ⟨"feature", "abc123"⟩ exampleLocal "main" rfl⟩

/-- C4: a commit already reported as unmerged for an earlier fork is
suppressed when a branch of a later fork points at the same commit: no
branch kept for the later fork carries that commit, and the composed run of
the loop over all forks indeed reports the earlier fork's result followed by
the deduplicated later one. -/
theorem C4_cross_fork_dedup (g : GitRepo) (integration_branch : String)
    (http : Http) (pre : List Repository) (f : Repository)
    (post : List Repository) (r1 : List (Repository × List Branch))
    (s1 : List String) (bs ubs : List Branch) (c : String)
    (h1 : mainLoop g integration_branch http [] pre = .ok (r1, s1))
    (hrep : ∃ p ∈ r1, c ∈ p.snd.map Branch.commit)
    (h2 : (get_branches http f).snd = .ok bs)
    (h3 : processBranches g integration_branch s1 bs = .ok ubs) :
    (∀ b ∈ ubs, b.commit ≠ c) ∧
    (∀ rest fin,
      mainLoop g integration_branch http (s1 ++ ubs.map Branch.commit) post =
          .ok (rest, fin) →
        mainLoop g integration_branch http [] (pre ++ f :: post) =
          .ok (r1 ++ (f, ubs) :: rest, fin)) := by
  have hc : c ∈ s1 :=
    (mainLoop_state_iff g integration_branch http [] pre r1 s1 h1 c).mpr
      (Or.inr hrep)
  constructor
  · intro b hb hbc
    have hnot := (processBranches_mem g integration_branch s1 bs ubs h3 b).mp hb
    exact hnot.2.2 (by rw [hbc]; exact hc)
  · intro rest fin h4
    rw [mainLoop_append g integration_branch http pre (f :: post) [] r1 s1 h1]
    have hstep : mainLoop g integration_branch http s1 (f :: post) =
        .ok ((f, ubs) :: rest, fin) := by
      rw [mainLoop]
      simp only [h2, h3, h4]
    simp only [hstep]

/-- Witness for C4: forks `alice/repo` and `bob/repo` both point at the
unmerged commit `abc123`; the full run reports `feature` for the first fork
and an empty branch list for the second. -/
theorem C4_cross_fork_dedup_witness :
    mainLoop exampleLocal "main" http2 []
        ([(⟨"alice", "repo"⟩ : Repository)] ++ (⟨"bob", "repo"⟩ : Repository) :: []) =
      .ok ([((⟨"alice", "repo"⟩ : Repository), [Branch.mk "feature" "abc123"])] ++
        ((⟨"bob", "repo"⟩ : Repository), ([] : List Branch)) :: [], ["abc123"]) ∧
    (∀ b ∈ ([] : List Branch), b.commit ≠ "abc123") :=
  have happ := C4_cross_fork_dedup exampleLocal "main" http2
    [⟨"alice", "repo"⟩] ⟨"bob", "repo"⟩ []
    [(⟨"alice", "repo"⟩, [⟨"feature", "abc123"⟩])] ["abc123"]
    [⟨"other", "abc123"⟩] [] "abc123" rfl
    ⟨(⟨"alice", "repo"⟩, [⟨"feature", "abc123"⟩]), List.mem_cons_self _ _, by decide⟩
    rfl rfl
  ⟨happ.2 [] ["abc123"] rfl, happ.1⟩

/-- C5: output groups the kept branch names under the fork's `owner/name:`
header with two-space indentation, in list order; and the end-to-end example
(one fork `alice/repo`, one branch `feature` at the locally unknown commit
`abc123`, local integration branch `main`) prints exactly the header line
followed by the indented branch name. -/
theorem C5_output_grouping :
    (∀ (fork : Repository) (ubs : List Branch), ubs ≠ [] →
      renderFork fork ubs =
        (fork.owner ++ "/" ++ fork.name ++ ":") ::
          ubs.map (fun b => "  " ++ b.name)) ∧
    main exampleLocal httpC ⟨"me", "repo"⟩ "main" =
      .ok ["alice/repo:", "  feature"] := by
  constructor
  · intro fork ubs hne
    unfold renderFork
    rw [if_neg (by simpa using hne)]
  · rfl

/-- Witness for C5: the rendering equation applied to the example fork, and
the end-to-end run itself. -/
theorem C5_output_grouping_witness :
    renderFork ⟨"alice", "repo"⟩ [⟨"feature", "abc123"⟩] =
      ["alice/repo:", "  feature"] ∧
    main exampleLocal httpC ⟨"me", "repo"⟩ "main" =
      .ok ["alice/repo:", "  feature"] :=
  ⟨(C5_output_grouping.1 ⟨"alice", "repo"⟩ [⟨"feature", "abc123"⟩]
      (by simp)).trans rfl,
    C5_output_grouping.2⟩

/-- C6: errors other than a missing branch commit are never caught: a network
failure of the forks request makes `main` fail with that very error, a
response that is not a JSON array makes `get_forks` fail with a
malformed-JSON error, and an integration ref that does not resolve makes
`branch_is_merged` fail with a bad-ref error whenever the branch commit
exists; nothing retries or recovers. -/
theorem C6_errors_propagate :
    (∀ (g : GitRepo) (http : Http) (repository : Repository)
        (integration_branch : String) (e : PyError),
      http (forksUrl repository) = .error e →
        main g http repository integration_branch = .error e) ∧
    (∀ (http : Http) (repository : Repository) (s : String),
      http (forksUrl repository) = .ok (Json.str s) →
        (get_forks http repository).snd = .error (.jsonError (forksUrl repository))) ∧
    (∀ (branch : Branch) (g : GitRepo) (integration_branch : String) (bc : String),
      resolve g branch.commit = some bc → resolve g integration_branch = none →
        branch_is_merged branch g integration_branch =
          .error (.badRef integration_branch)) := by
  refine ⟨?_, ?_, ?_⟩
  · intro g http repository integration_branch e h
    unfold main
    simp only [get_forks_snd_error http repository e h]
  · intro http repository s h
    unfold get_forks
    simp only [h]
  · intro branch g integration_branch bc hb hi
    unfold branch_is_merged
    simp only [hb, hi]

/-- Witness for C6: a failing network layer aborts `main`, a non-array body
aborts `get_forks`, and a missing `main` ref aborts the merge check for an
existing commit. -/
theorem C6_errors_propagate_witness :
    main exampleLocal httpErr ⟨"me", "repo"⟩ "main" =
      .error (.network (forksUrl ⟨"me", "repo"⟩)) ∧
    (get_forks httpBad ⟨"me", "repo"⟩).snd =
      .error (.jsonError (forksUrl ⟨"me", "repo"⟩)) ∧
    branch_is_merged ⟨"b", "c0"⟩ gNoRef "main" = .error (.badRef "main") :=
  ⟨C6_errors_propagate.1 exampleLocal httpErr ⟨"me", "repo"⟩ "main" _ rfl,
    C6_errors_propagate.2.1 httpBad ⟨"me", "repo"⟩ "oops" rfl,
    C6_errors_propagate.2.2 ⟨"b", "c0"⟩ gNoRef "main" "c0" rfl rfl⟩

/-- C7: each accessor issues exactly one HTTP GET, to the first-page URL with
`per_page=100` and no other request, and parses a JSON array response into
one record per element (`owner.login`/`name` for forks, `name`/`commit.sha`
for branches, as unfolded in `parseFork` and `parseBranch`). -/
theorem C7_single_request_per_call :
    (∀ (http : Http) (repository : Repository),
      (get_forks http repository).fst = [forksUrl repository] ∧
      forksUrl repository = "https://api.github.com/repos/" ++ repository.owner ++
        "/" ++ repository.name ++ "/forks?per_page=100") ∧
    (∀ (http : Http) (repository : Repository),
      (get_branches http repository).fst = [branchesUrl repository] ∧
      branchesUrl repository = "https://api.github.com/repos/" ++ repository.owner ++
        "/" ++ repository.name ++ "/branches?per_page=100") ∧
    (∀ (http : Http) (repository : Repository) (elements : List Json)
        (repos : List Repository),
      http (forksUrl repository) = .ok (Json.arr elements) →
      elements.mapM parseFork = some repos →
        (get_forks http repository).snd = .ok repos ∧
        repos.length = elements.length) ∧
    (∀ (http : Http) (repository : Repository) (elements : List Json)
        (branches : List Branch),
      http (branchesUrl repository) = .ok (Json.arr elements) →
      elements.mapM parseBranch = some branches →
        (get_branches http repository).snd = .ok branches ∧
        branches.length = elements.length) := by
  refine ⟨?_, ?_, ?_, ?_⟩
  · intro http repository
    exact ⟨rfl, rfl⟩
  · intro http repository
    exact ⟨rfl, rfl⟩
  · intro http repository elements repos h1 h2
    constructor
    · unfold get_forks
      simp only [h1, h2]
    · exact mapM_option_length parseFork elements repos h2
  · intro http repository elements branches h1 h2
    constructor
    · unfold get_branches
      simp only [h1, h2]
    · exact mapM_option_length parseBranch elements branches h2

/-- Witness for C7: the example API layer is queried once per call and its
one-element arrays parse into exactly one record each. -/
theorem C7_single_request_per_call_witness :
    (get_forks httpC ⟨"me", "repo"⟩).fst = [forksUrl ⟨"me", "repo"⟩] ∧
    (get_branches httpC ⟨"alice", "repo"⟩).fst = [branchesUrl ⟨"alice", "repo"⟩] ∧
    ((get_forks httpC ⟨"me", "repo"⟩).snd = .ok [⟨"alice", "repo"⟩] ∧
      ([(⟨"alice", "repo"⟩ : Repository)]).length = [forkJsonAlice].length) ∧
    ((get_branches httpC ⟨"alice", "repo"⟩).snd = .ok [⟨"feature", "abc123"⟩] ∧
      ([(⟨"feature", "abc123"⟩ : Branch)]).length = [branchJsonFeature].length) :=
  ⟨(C7_single_request_per_call.1 httpC ⟨"me", "repo"⟩).1,
    (C7_single_request_per_call.2.1 httpC ⟨"alice", "repo"⟩).1,
    C7_single_request_per_call.2.2.1 httpC ⟨"me", "repo"⟩ [forkJsonAlice]
      [⟨"alice", "repo"⟩] rfl rfl,
    C7_single_request_per_call.2.2.2 httpC ⟨"alice", "repo"⟩ [branchJsonFeature]
      [⟨"feature", "abc123"⟩] rfl rfl⟩

/-- C8: within a single fork the duplicate-suppression set does not apply: a
branch is kept exactly when it is in the fork's branch list, unmerged, and
its commit is outside the set as it stood when the fork's filtering started —
the set is only updated after the whole fork is filtered, so several branches
of one fork sharing one unmerged commit are all kept. -/
theorem C8_no_dedup_within_fork (g : GitRepo) (integration_branch : String)
    (all_unmerged : List String) (bs ubs : List Branch)
    (h : processBranches g integration_branch all_unmerged bs = .ok ubs)
    (b : Branch) :
    b ∈ ubs ↔
      b ∈ bs ∧ branch_is_merged b g integration_branch = .ok false ∧
        b.commit ∉ all_unmerged :=
  processBranches_mem g integration_branch all_unmerged bs ubs h b

/-- Witness for C8: two branches of one fork share the unmerged commit
`abc123` and both are kept by the filter. -/
theorem C8_no_dedup_within_fork_witness :
    (⟨"b1", "abc123"⟩ : Branch) ∈
        [Branch.mk "b1" "abc123", Branch.mk "b2" "abc123"] ∧
    (⟨"b2", "abc123"⟩ : Branch) ∈
        [Branch.mk "b1" "abc123", Branch.mk "b2" "abc123"] :=
  ⟨(C8_no_dedup_within_fork exampleLocal "main" []
      [⟨"b1", "abc123"⟩, ⟨"b2", "abc123"⟩] [⟨"b1", "abc123"⟩, ⟨"b2", "abc123"⟩]
      rfl ⟨"b1", "abc123"⟩).mpr
      ⟨List.mem_cons_self _ _, rfl, List.not_mem_nil _⟩,
    (C8_no_dedup_within_fork exampleLocal "main" []
      [⟨"b1", "abc123"⟩, ⟨"b2", "abc123"⟩] [⟨"b1", "abc123"⟩, ⟨"b2", "abc123"⟩]
      rfl ⟨"b2", "abc123"⟩).mpr
      ⟨List.mem_cons_of_mem _ (List.mem_cons_self _ _), rfl, List.not_mem_nil _⟩⟩

/-- C9: the missing-commit exit happens before the integration ref is
resolved, so a branch whose commit is absent yields `false` even when the
integration ref is invalid; conversely the only error the function can raise
is the bad-ref error, and it requires the branch commit to exist. -/
theorem C9_missing_commit_shields_bad_ref (branch : Branch) (g : GitRepo)
    (integration_branch : String) :
    (resolve g branch.commit = none →
      branch_is_merged branch g integration_branch = .ok false) ∧
    (∀ e, branch_is_merged branch g integration_branch = .error e →
      (∃ bc, resolve g branch.commit = some bc) ∧
        resolve g integration_branch = none ∧ e = .badRef integration_branch) := by
  constructor
  · intro h
    unfold branch_is_merged
    simp only [h]
  · intro e h
    unfold branch_is_merged at h
    split at h
    · exact absurd h (by simp)
    · next bc hb =>
      split at h
      · next hi =>
        injection h with h'
        exact ⟨⟨bc, hb⟩, hi, h'.symm⟩
      · next ic hi =>
        exact absurd h (by simp)

/-- Witness for C9: in the repository without a `main` ref, a branch with an
unknown commit still gets the ordinary `false`, while a branch with an
existing commit hits the bad-ref error. -/
theorem C9_missing_commit_shields_bad_ref_witness :
    branch_is_merged ⟨"b", "zz"⟩ gNoRef "main" = .ok false ∧
    ((∃ bc, resolve gNoRef (Branch.mk "b" "c0").commit = some bc) ∧
      resolve gNoRef "main" = none ∧
      (PyError.badRef "main" : PyError) = .badRef "main") :=
  ⟨(C9_missing_commit_shields_bad_ref ⟨"b", "zz"⟩ gNoRef "main").1 rfl,
    (C9_missing_commit_shields_bad_ref ⟨"b", "c0"⟩ gNoRef "main").2
      (.badRef "main") rfl⟩

/-- C10: the `all_unmerged` set after any run of the fork loop contains
exactly the incoming set plus the commit hashes of the branches reported for
the processed forks — commits judged merged or suppressed as duplicates are
never added — and that set is precisely the state with which the loop
continues on the remaining forks. -/
theorem C10_all_unmerged_invariant (g : GitRepo) (integration_branch : String)
    (http : Http) (acc : List String) (forks : List Repository)
    (report : List (Repository × List Branch)) (final : List String)
    (h : mainLoop g integration_branch http acc forks = .ok (report, final)) :
    (∀ c, c ∈ final ↔ c ∈ acc ∨ ∃ p ∈ report, c ∈ p.snd.map Branch.commit) ∧
    (∀ post r2 s2,
      mainLoop g integration_branch http final post = .ok (r2, s2) →
        mainLoop g integration_branch http acc (forks ++ post) =
          .ok (report ++ r2, s2)) := by
  constructor
  · intro c
    exact mainLoop_state_iff g integration_branch http acc forks report final h c
  · intro post r2 s2 h2
    rw [mainLoop_append g integration_branch http forks post acc report final h]
    simp only [h2]

/-- Witness for C10: after processing `alice/repo` the set is exactly
`abc123`, and continuing with `bob/repo` from that state is the same as the
combined run. -/
theorem C10_all_unmerged_invariant_witness :
    ("abc123" ∈ (["abc123"] : List String) ↔
      "abc123" ∈ ([] : List String) ∨
        ∃ p ∈ [((⟨"alice", "repo"⟩ : Repository), [Branch.mk "feature" "abc123"])],
          "abc123" ∈ p.snd.map Branch.commit) ∧
    mainLoop exampleLocal "main" http2 []
        ([(⟨"alice", "repo"⟩ : Repository)] ++ [(⟨"bob", "repo"⟩ : Repository)]) =
      .ok ([((⟨"alice", "repo"⟩ : Repository), [Branch.mk "feature" "abc123"])] ++
        [((⟨"bob", "repo"⟩ : Repository), ([] : List Branch))], ["abc123"]) :=
  ⟨(C10_all_unmerged_invariant exampleLocal "main" http2 [] [⟨"alice", "repo"⟩]
      [(⟨"alice", "repo"⟩, [⟨"feature", "abc123"⟩])] ["abc123"] rfl).1 "abc123",
    (C10_all_unmerged_invariant exampleLocal "main" http2 [] [⟨"alice", "repo"⟩]
      [(⟨"alice", "repo"⟩, [⟨"feature", "abc123"⟩])] ["abc123"] rfl).2
      [⟨"bob", "repo"⟩] [(⟨"bob", "repo"⟩, [])] ["abc123"] rfl⟩

end ForkQueue
